import Mathlib

/-! Shallow embedding of the pybloom bloom-filter library
(`pybloom/pybloom.py` of jaybaird/python-bloomfilter).

Two parts of the source are abstracted as deterministic function
parameters, because no claim depends on their numeric values, only on
their determinism and ranges:

* the hash engine `make_hashfuncs(num_slices, bits_per_slice)`, which
  derives exactly `num_slices` indices, each in `[0, bits_per_slice)`,
  from an MD5/SHA digest of the key: it appears as a parameter
  `hashes : Nat → Nat → α → List Nat` constrained by `HashValid`;
* the floating-point geometry derivation in `BloomFilter.__init__`
  (`num_slices = ceil(log2(1/error_rate))`,
  `bits_per_slice = ceil(capacity·|ln error_rate|/(num_slices·ln²2))`),
  which appears as a parameter `derive : ℚ → ℕ → ℕ × ℕ` mapping
  `(error_rate, capacity)` to `(num_slices, bits_per_slice)`.

Machine floats of the source (`error_rate`, `ratio`) are modelled as
rationals; the bitarray is a `List Bool` in little-endian bit order. -/

/-- Pack a little-endian list of bits into a byte value: bit 0 is the
least significant bit, as in `bitarray(endian='little').tobytes()`. -/
def bitsToByte (l : List Bool) : ℕ :=
  l.foldr (fun b acc => 2 * acc + (if b then 1 else 0)) 0

/-- Unpack one byte into its 8 bits, least significant first. -/
def byteToBits (b : ℕ) : List Bool :=
  (List.range 8).map (fun i => b.testBit i)

/-- `bitarray.frombytes`: every byte contributes 8 bits. -/
def bytesToBits (bs : List ℕ) : List Bool :=
  bs.flatMap byteToBits

/-- `bitarray.tobytes`: chunk the bits into bytes, padding the final
partial byte with zero bits (a chunk shorter than 8 bits packs with its
missing high bits zero). -/
def bitsToBytes : List Bool → List ℕ
  | [] => []
  | b0 :: b1 :: b2 :: b3 :: b4 :: b5 :: b6 :: b7 :: rest =>
    bitsToByte [b0, b1, b2, b3, b4, b5, b6, b7] :: bitsToBytes rest
  | l => [bitsToByte l]

/-- State of `BloomFilter` as set up by `BloomFilter._setup`: the stored
scalar fields plus the bit vector (`self.bitarray`, little-endian).
`num_bits` is always assigned `num_slices * bits_per_slice` by `_setup`,
so it is kept as a derived function rather than a field. -/
structure BloomFilter where
  error_rate : ℚ
  num_slices : ℕ
  bits_per_slice : ℕ
  capacity : ℕ
  count : ℕ
  bits : List Bool
deriving Repr, DecidableEq

/-- `self.num_bits = num_slices * bits_per_slice` (set in `_setup`). -/
def BloomFilter.num_bits (F : BloomFilter) : ℕ :=
  F.num_slices * F.bits_per_slice

/-- `len(filter)` returns `self.count`. -/
def BloomFilter.len (F : BloomFilter) : ℕ :=
  F.count

/-- A hash-engine abstraction is valid when, for a positive slice width,
it yields exactly `num_slices` indices, each below `bits_per_slice` —
which is what `make_hashfuncs` produces (`uint % num_bits`, stopping
after `num_slices` values). -/
def HashValid {α : Type} (hashes : ℕ → ℕ → α → List ℕ) : Prop :=
  ∀ n m key, 0 < m →
    (hashes n m key).length = n ∧ ∀ x ∈ hashes n m key, x < m

/-- Well-formedness of a filter state: positive slice width and a bit
vector of exactly `num_bits` bits (as allocated by the constructor). -/
def BloomFilter.WellFormed (F : BloomFilter) : Prop :=
  0 < F.bits_per_slice ∧ F.bits.length = F.num_bits

/-- `BloomFilter.__init__(capacity, error_rate)`: validate the ranges,
derive the geometry, allocate the zeroed bit vector, set `count = 0`. -/
def BloomFilter.init (derive : ℚ → ℕ → ℕ × ℕ) (capacity : ℕ)
    (error_rate : ℚ) : Except String BloomFilter :=
  if ¬(0 < error_rate ∧ error_rate < 1) then
    .error "Error_Rate must be between 0 and 1."
  else if ¬(capacity > 0) then
    .error "Capacity must be > 0"
  else
    .ok { error_rate := error_rate
          num_slices := (derive error_rate capacity).1
          bits_per_slice := (derive error_rate capacity).2
          capacity := capacity
          count := 0
          bits := List.replicate
            ((derive error_rate capacity).1 * (derive error_rate capacity).2)
            false }

/-- Reading `bitarray[i]` (positions beyond the vector read as unset;
the source never reads out of range on well-formed filters). -/
def bitGet (bits : List Bool) (i : ℕ) : Bool :=
  bits.getD i false

/-- The loop of `__contains__`: walk the hash indices, advancing
`offset` by `bits_per_slice` per slice; return `False` on the first
unset bit, `True` when all are set. -/
def containsLoop : List ℕ → ℕ → ℕ → List Bool → Bool
  | [], _, _, _ => true
  | k :: ks, offset, bps, bits =>
    if !(bitGet bits (offset + k)) then false
    else containsLoop ks (offset + bps) bps bits

/-- `key in filter` (`BloomFilter.__contains__`). -/
def BloomFilter.containsKey {α : Type} (hashes : ℕ → ℕ → α → List ℕ)
    (F : BloomFilter) (key : α) : Bool :=
  containsLoop (hashes F.num_slices F.bits_per_slice key) 0 F.bits_per_slice F.bits

/-- The bit mutation performed by the loop of `add`: set the addressed
bit of every slice. -/
def setBits : List ℕ → ℕ → ℕ → List Bool → List Bool
  | [], _, _, bits => bits
  | k :: ks, offset, bps, bits =>
    setBits ks (offset + bps) bps (bits.set (offset + k) true)

/-- The loop of `add`: the `found_all_bits` flag is cleared the first
time an unset bit is observed (the check is skipped once cleared, and
entirely when `skip_check` holds); every addressed bit is set. Reads see
the bits set by earlier iterations of the same call, as in the source
(`bitarray` aliases `self.bitarray`). -/
def addLoop (skip_check : Bool) :
    List ℕ → ℕ → ℕ → List Bool → Bool → List Bool × Bool
  | [], _, _, bits, found => (bits, found)
  | k :: ks, offset, bps, bits, found =>
    let found' := if !skip_check && found && !(bitGet bits (offset + k))
      then false else found
    addLoop skip_check ks (offset + bps) bps (bits.set (offset + k) true) found'

/-- `BloomFilter.add(key, skip_check)`: fail when `count > capacity`,
else run the loop; on `skip_check` or when some bit was unset, increment
`count` and return `False`; otherwise return `True`. -/
def BloomFilter.add {α : Type} (hashes : ℕ → ℕ → α → List ℕ)
    (F : BloomFilter) (key : α) (skip_check : Bool) :
    Except String (BloomFilter × Bool) :=
  if F.count > F.capacity then .error "BloomFilter is at capacity"
  else
    let r := addLoop skip_check (hashes F.num_slices F.bits_per_slice key)
      0 F.bits_per_slice F.bits true
    if skip_check then .ok ({ F with bits := r.1, count := F.count + 1 }, false)
    else if !r.2 then .ok ({ F with bits := r.1, count := F.count + 1 }, false)
    else .ok ({ F with bits := r.1 }, true)

/-- A sequence of `add` calls, each key paired with its `skip_check`
flag; stops at the first raised error. -/
def addSeq {α : Type} (hashes : ℕ → ℕ → α → List ℕ) :
    BloomFilter → List (α × Bool) → Except String BloomFilter
  | F, [] => .ok F
  | F, (key, sc) :: rest =>
    match F.add hashes key sc with
    | .error e => .error e
    | .ok (F', _) => addSeq hashes F' rest

/-- `BloomFilter.copy`: construct a fresh filter from
`(capacity, error_rate)` — hence `count = 0` — then replace its bit
vector by a copy of this filter's. -/
def BloomFilter.copy (derive : ℚ → ℕ → ℕ × ℕ) (F : BloomFilter) :
    Except String BloomFilter :=
  (BloomFilter.init derive F.capacity F.error_rate).map
    (fun G => { G with bits := F.bits })

/-- `BloomFilter.union`: only `capacity` and `error_rate` are compared;
the result is a copy whose bit vector is the bitwise OR. (The external
bitarray primitive is specified only on equal-length vectors; `zipWith`
agrees with it there.) -/
def BloomFilter.union (derive : ℚ → ℕ → ℕ × ℕ) (F other : BloomFilter) :
    Except String BloomFilter :=
  if F.capacity ≠ other.capacity ∨ F.error_rate ≠ other.error_rate then
    .error "Unioning filters requires both filters to have both the same capacity and error rate"
  else
    (F.copy derive).map
      (fun nb => { nb with bits := List.zipWith or nb.bits other.bits })

/-- `BloomFilter.intersection`: same check as `union`, bitwise AND. -/
def BloomFilter.intersection (derive : ℚ → ℕ → ℕ × ℕ)
    (F other : BloomFilter) : Except String BloomFilter :=
  if F.capacity ≠ other.capacity ∨ F.error_rate ≠ other.error_rate then
    .error "Intersecting filters requires both filters to have equal capacity and error rate"
  else
    (F.copy derive).map
      (fun nb => { nb with bits := List.zipWith and nb.bits other.bits })

/-- The serialized form of a `BloomFilter` produced by `tofile`: the
40-byte header `pack('<dQQQQ', error_rate, num_slices, bits_per_slice,
capacity, count)` is modelled field-wise (each scalar field round-trips
exactly through `pack`/`unpack`), followed by the raw payload bytes. -/
structure BFFile where
  error_rate : ℚ
  num_slices : ℕ
  bits_per_slice : ℕ
  capacity : ℕ
  count : ℕ
  payload : List ℕ
deriving Repr, DecidableEq

/-- `BloomFilter.tofile`: header fields then `bitarray.tobytes()`. -/
def BloomFilter.tofile (F : BloomFilter) : BFFile :=
  ⟨F.error_rate, F.num_slices, F.bits_per_slice, F.capacity, F.count,
    bitsToBytes F.bits⟩

/-- `BloomFilter.fromfile`: `_setup` from the unpacked header (the bogus
`cls(1)` instantiation it overwrites has no observable effect), read the
payload into the bit vector, then check its bit length against
`num_bits` and `num_bits + (8 - num_bits % 8)`. -/
def BloomFilter.fromfile (file : BFFile) : Except String BloomFilter :=
  let F : BloomFilter :=
    ⟨file.error_rate, file.num_slices, file.bits_per_slice, file.capacity,
      file.count, bytesToBits file.payload⟩
  if F.num_bits ≠ F.bits.length ∧
      F.num_bits + (8 - F.num_bits % 8) ≠ F.bits.length then
    .error "Bit length mismatch!"
  else .ok F

/-- State of `ScalableBloomFilter` as set up by its `_setup`:
`scale` stores the `mode` argument, `ratio` is fixed at 0.9 by
`__init__`, and `filters` is the ordered list of generations. -/
structure ScalableBloomFilter where
  scale : ℕ
  ratio : ℚ
  initial_capacity : ℕ
  error_rate : ℚ
  filters : List BloomFilter
deriving Repr, DecidableEq

/-- `ScalableBloomFilter.SMALL_SET_GROWTH`. -/
def ScalableBloomFilter.SMALL_SET_GROWTH : ℕ := 2

/-- `ScalableBloomFilter.LARGE_SET_GROWTH`. -/
def ScalableBloomFilter.LARGE_SET_GROWTH : ℕ := 4

/-- `ScalableBloomFilter.__init__(initial_capacity, error_rate, mode)`:
the only validation is `if not error_rate or error_rate < 0` (i.e.
`error_rate ≤ 0` raises); then `_setup(mode, 0.9, initial_capacity,
error_rate)` and `filters = []`. -/
def ScalableBloomFilter.init (initial_capacity : ℕ) (error_rate : ℚ)
    (mode : ℕ) : Except String ScalableBloomFilter :=
  if error_rate = 0 ∨ error_rate < 0 then
    .error "Error_Rate must be a decimal less than 0."
  else
    .ok { scale := mode
          ratio := 9 / 10
          initial_capacity := initial_capacity
          error_rate := error_rate
          filters := [] }

/-- `ScalableBloomFilter.__contains__`: scan the filters newest first,
`True` on the first hit. -/
def ScalableBloomFilter.containsKey {α : Type}
    (hashes : ℕ → ℕ → α → List ℕ) (S : ScalableBloomFilter) (key : α) :
    Bool :=
  S.filters.reverse.any (fun F => F.containsKey hashes key)

/-- `ScalableBloomFilter.add(key)`: return `True` if the key is already
contained; otherwise pick the active filter — a first generation when
`filters` is empty, a new generation when the last one is full
(`count >= capacity`), else the last filter — insert with
`skip_check=True`, and return `False`. -/
def ScalableBloomFilter.add {α : Type} (derive : ℚ → ℕ → ℕ × ℕ)
    (hashes : ℕ → ℕ → α → List ℕ) (S : ScalableBloomFilter) (key : α) :
    Except String (ScalableBloomFilter × Bool) :=
  if S.containsKey hashes key then .ok (S, true)
  else
    match S.filters.getLast? with
    | none =>
      match BloomFilter.init derive S.initial_capacity
          (S.error_rate * (1 - S.ratio)) with
      | .error e => .error e
      | .ok fresh =>
        match fresh.add hashes key true with
        | .error e => .error e
        | .ok (f2, _) => .ok ({ S with filters := S.filters ++ [f2] }, false)
    | some last =>
      if last.count ≥ last.capacity then
        match BloomFilter.init derive (last.capacity * S.scale)
            (last.error_rate * S.ratio) with
        | .error e => .error e
        | .ok fresh =>
          match fresh.add hashes key true with
          | .error e => .error e
          | .ok (f2, _) => .ok ({ S with filters := S.filters ++ [f2] }, false)
      else
        match last.add hashes key true with
        | .error e => .error e
        | .ok (l2, _) =>
          .ok ({ S with filters := S.filters.dropLast ++ [l2] }, false)

/-- `ScalableBloomFilter.capacity`: sum of the generations. -/
def ScalableBloomFilter.capacity (S : ScalableBloomFilter) : ℕ :=
  (S.filters.map BloomFilter.capacity).sum

/-- `len(sbf)`: sum of the per-generation counts. -/
def ScalableBloomFilter.len (S : ScalableBloomFilter) : ℕ :=
  (S.filters.map BloomFilter.count).sum

/-- The serialized form of a `ScalableBloomFilter`: the header
`pack('<idQd', scale, ratio, initial_capacity, error_rate)` modelled
field-wise, then the embedded filter files. The filter-count and
per-filter byte-length bookkeeping of `tofile`/`fromfile` (which lets
each embedded filter be read back with its exact byte budget) is
subsumed by keeping the files as a list. -/
structure SBFFile where
  scale : ℕ
  ratio : ℚ
  initial_capacity : ℕ
  error_rate : ℚ
  files : List BFFile
deriving Repr, DecidableEq

/-- `ScalableBloomFilter.tofile`. -/
def ScalableBloomFilter.tofile (S : ScalableBloomFilter) : SBFFile :=
  ⟨S.scale, S.ratio, S.initial_capacity, S.error_rate,
    S.filters.map BloomFilter.tofile⟩

/-- `ScalableBloomFilter.fromfile`: `_setup` from the header (the
`cls()` default instantiation it overwrites always validates), then
read each embedded filter with `BloomFilter.fromfile`. -/
def ScalableBloomFilter.fromfile (file : SBFFile) :
    Except String ScalableBloomFilter :=
  (file.files.mapM BloomFilter.fromfile).map
    (fun fs => ⟨file.scale, file.ratio, file.initial_capacity,
      file.error_rate, fs⟩)

/-- A concrete valid hash engine used by witnesses: slice `s` addresses
index `(key + s) % bits_per_slice`. -/
def modHashes (n m : ℕ) (key : ℕ) : List ℕ :=
  (List.range n).map (fun s => (key + s) % m)

/-- A concrete stand-in geometry derivation used by witnesses: one
slice of eight bits. -/
def exDerive : ℚ → ℕ → ℕ × ℕ := fun _ _ => (1, 8)

/-- A second concrete derivation whose `num_bits` is not a multiple of
eight. -/
def exDerive2 : ℚ → ℕ → ℕ × ℕ := fun _ _ => (1, 2)

/-- Parameter sanity for an SBF state, as established by construction
with `0 < error_rate < 1`, a positive `initial_capacity`, a growth mode
of 2 or 4, and the fixed `ratio = 0.9`; every generation then carries a
valid `(capacity, error_rate)` of its own. -/
def ScalableBloomFilter.Valid (S : ScalableBloomFilter) : Prop :=
  0 < S.ratio ∧ S.ratio < 1 ∧ 0 < S.error_rate ∧ S.error_rate < 1 ∧
  0 < S.initial_capacity ∧ 0 < S.scale ∧
  ∀ F ∈ S.filters, 0 < F.error_rate ∧ F.error_rate < 1 ∧ 0 < F.capacity

/-- How a reloaded filter relates to the filter that was serialized:
every header field agrees, and the bit vector agrees except that it is
padded with zero bits to the next byte boundary (`tobytes` pads, and
`frombytes` keeps the padding). -/
def RoundTripRel (F G : BloomFilter) : Prop :=
  G.error_rate = F.error_rate ∧ G.num_slices = F.num_slices ∧
  G.bits_per_slice = F.bits_per_slice ∧ G.capacity = F.capacity ∧
  G.count = F.count ∧
  G.bits = F.bits ++ List.replicate ((8 - F.bits.length % 8) % 8) false

/-- Rational facts used to instantiate witnesses. -/
theorem halfPos : (0:ℚ) < 1/2 := by norm_num

/-- The witness error rate is below one. -/
theorem halfLtOne : (1:ℚ)/2 < 1 := by norm_num

/-- The fixed tightening ratio is positive. -/
theorem nineTenthsPos : (0:ℚ) < 9/10 := by norm_num

/-- The fixed tightening ratio is below one. -/
theorem nineTenthsLtOne : (9:ℚ)/10 < 1 := by norm_num

/-- Bit `i` of a packed byte is bit `i` of the original list. -/
theorem bitsToByte_testBit (l : List Bool) (i : ℕ) :
    (bitsToByte l).testBit i = l.getD i false := by
  induction l generalizing i with
  | nil => simp [bitsToByte]
  | cons b t ih =>
    have hfold : bitsToByte (b :: t) = 2 * bitsToByte t + (if b then 1 else 0) := rfl
    cases i with
    | zero =>
      rw [hfold, Nat.testBit_zero, List.getD_cons_zero]
      cases b
      · have h0 : (2 * bitsToByte t + 0) % 2 = 0 := by omega
        simp [h0]
      · have h1 : (2 * bitsToByte t + 1) % 2 = 1 := by omega
        simp [h1]
    | succ n =>
      rw [hfold, Nat.testBit_add_one, List.getD_cons_succ]
      have h2 : (2 * bitsToByte t + (if b then 1 else 0)) / 2 = bitsToByte t := by
        cases b
        · have hz : (if (false : Bool) then 1 else 0) = 0 := rfl
          rw [hz]
          omega
        · have ho : (if (true : Bool) then 1 else 0) = 1 := rfl
          rw [ho]
          omega
      rw [h2, ih]

/-- Unpacking always yields 8 bits. -/
theorem byteToBits_length (b : ℕ) : (byteToBits b).length = 8 := by
  simp [byteToBits]

/-- Unpacking a packed chunk of at most 8 bits recovers the bits, padded
with zero bits up to 8. -/
theorem byteToBits_bitsToByte (l : List Bool) (h : l.length ≤ 8) :
    byteToBits (bitsToByte l) = l ++ List.replicate (8 - l.length) false := by
  apply List.ext_getElem
  · simp [byteToBits]
    omega
  · intro i h1 h2
    have hL : (byteToBits (bitsToByte l))[i] = (bitsToByte l).testBit i := by
      simp [byteToBits]
    rw [hL, bitsToByte_testBit]
    by_cases hi : i < l.length
    · rw [List.getElem_append_left hi, List.getD_eq_getElem _ _ hi]
    · push_neg at hi
      rw [List.getElem_append_right hi, List.getD_eq_default _ _ hi,
        List.getElem_replicate]

/-- `frombytes` yields 8 bits per byte. -/
theorem length_bytesToBits (bs : List ℕ) :
    (bytesToBits bs).length = 8 * bs.length := by
  induction bs with
  | nil => simp [bytesToBits]
  | cons a t ih =>
    simp only [bytesToBits, List.flatMap_cons, List.length_append,
      byteToBits_length, List.length_cons] at *
    omega

/-- The defining chunk equation of `bitsToBytes`. -/
theorem bitsToBytes_eq : ∀ (l : List Bool), l ≠ [] →
    bitsToBytes l = bitsToByte (l.take 8) :: bitsToBytes (l.drop 8)
  | [], h => absurd rfl h
  | [_], _ => rfl
  | [_, _], _ => rfl
  | [_, _, _], _ => rfl
  | [_, _, _, _], _ => rfl
  | [_, _, _, _, _], _ => rfl
  | [_, _, _, _, _, _], _ => rfl
  | [_, _, _, _, _, _, _], _ => rfl
  | _ :: _ :: _ :: _ :: _ :: _ :: _ :: _ :: _, _ => rfl

/-- `frombytes (tobytes l)` recovers `l` padded with zero bits to the
next byte boundary. -/
theorem bytesToBits_bitsToBytes (l : List Bool) :
    bytesToBits (bitsToBytes l)
      = l ++ List.replicate ((8 - l.length % 8) % 8) false := by
  suffices h : ∀ (n : ℕ) (l : List Bool), l.length ≤ n →
      bytesToBits (bitsToBytes l)
        = l ++ List.replicate ((8 - l.length % 8) % 8) false from
    h l.length l le_rfl
  intro n
  induction n with
  | zero =>
    intro l hl
    have hnil : l = [] := List.eq_nil_of_length_eq_zero (by omega)
    subst hnil
    simp [bitsToBytes, bytesToBits]
  | succ n ih =>
    intro l hl
    match l with
    | [] => simp [bitsToBytes, bytesToBits]
    | b :: t =>
      have heq : bitsToBytes (b :: t)
          = bitsToByte ((b :: t).take 8) :: bitsToBytes ((b :: t).drop 8) :=
        bitsToBytes_eq (b :: t) (by simp)
      rw [heq]
      have hflat : bytesToBits (bitsToByte ((b :: t).take 8)
            :: bitsToBytes ((b :: t).drop 8))
          = byteToBits (bitsToByte ((b :: t).take 8))
            ++ bytesToBits (bitsToBytes ((b :: t).drop 8)) := by
        simp [bytesToBits]
      rw [hflat]
      by_cases hlen : (b :: t).length ≤ 8
      · have htake : (b :: t).take 8 = b :: t := List.take_of_length_le hlen
        have hd : (b :: t).drop 8 = [] := List.drop_eq_nil_of_le hlen
        rw [htake, hd, byteToBits_bitsToByte _ hlen]
        have hlc : (b :: t).length % 8 = (b :: t).length ∨
            ((b :: t).length = 8 ∧ (b :: t).length % 8 = 0) := by
          have := List.length_cons b t ▸ hl
          omega
        have hpad : (8 - (b :: t).length % 8) % 8 = 8 - (b :: t).length := by
          have hpos : 0 < (b :: t).length := by simp
          omega
        rw [hpad]
        simp [bitsToBytes, bytesToBits]
      · push_neg at hlen
        have hlen' : 8 < t.length + 1 := by simpa using hlen
        have htl : ((b :: t).take 8).length = 8 := by
          rw [List.length_take, List.length_cons]
          omega
        rw [byteToBits_bitsToByte _ (le_of_eq htl), htl]
        have hl' : t.length + 1 ≤ n + 1 := by simpa using hl
        have hdl : ((b :: t).drop 8).length ≤ n := by
          rw [List.length_drop, List.length_cons]
          omega
        rw [ih _ hdl]
        have hmod : ((b :: t).drop 8).length % 8 = (b :: t).length % 8 := by
          rw [List.length_drop, List.length_cons]
          omega
        rw [hmod]
        simp only [Nat.sub_self, List.replicate_zero, List.append_nil,
          ← List.append_assoc, List.take_append_drop]


/-- Reading back the (in-range) position just set. -/
theorem bitGet_set_self (l : List Bool) (i : ℕ) (b : Bool)
    (h : i < l.length) : bitGet (l.set i b) i = b := by
  simp [bitGet, List.getD_eq_getElem?_getD, List.getElem?_set_self h]

/-- Setting one position leaves the others unchanged. -/
theorem bitGet_set_ne (l : List Bool) (i j : ℕ) (b : Bool)
    (h : i ≠ j) : bitGet (l.set i b) j = bitGet l j := by
  simp [bitGet, List.getD_eq_getElem?_getD, List.getElem?_set_ne h]

/-- Setting a bit never clears a set bit. -/
theorem bitGet_set_mono (l : List Bool) (i j : ℕ)
    (h : bitGet l j = true) : bitGet (l.set i true) j = true := by
  by_cases hij : i = j
  · subst hij
    have hj : i < l.length := by
      by_contra hh
      push_neg at hh
      have hfalse : bitGet l i = false := by
        simp [bitGet, List.getD_eq_getElem?_getD, List.getElem?_eq_none hh]
      rw [hfalse] at h
      exact Bool.false_ne_true h
    exact bitGet_set_self l i true hj
  · rw [bitGet_set_ne l i j true hij]
    exact h

/-- `setBits` preserves the vector length. -/
theorem length_setBits (ks : List ℕ) (off bps : ℕ) (bits : List Bool) :
    (setBits ks off bps bits).length = bits.length := by
  induction ks generalizing off bits with
  | nil => simp [setBits]
  | cons k t ih => simp [setBits, ih]

/-- `setBits` never clears a set bit. -/
theorem bitGet_setBits_mono (ks : List ℕ) (off bps p : ℕ) (bits : List Bool)
    (h : bitGet bits p = true) :
    bitGet (setBits ks off bps bits) p = true := by
  induction ks generalizing off bits with
  | nil => simpa [setBits] using h
  | cons k t ih =>
    simp only [setBits]
    exact ih _ _ (bitGet_set_mono bits (off + k) p h)

/-- The bit-vector component of the `add` loop is `setBits`, whatever
the flags are. -/
theorem addLoop_fst (sc : Bool) (ks : List ℕ) (off bps : ℕ)
    (bits : List Bool) (fnd : Bool) :
    (addLoop sc ks off bps bits fnd).1 = setBits ks off bps bits := by
  induction ks generalizing off bits fnd with
  | nil => simp [addLoop, setBits]
  | cons k t ih =>
    simp only [addLoop, setBits]
    exact ih _ _ _

/-- Once cleared, the `found_all_bits` flag stays cleared. -/
theorem addLoop_false_snd (ks : List ℕ) (off bps : ℕ) (bits : List Bool) :
    (addLoop false ks off bps bits false).2 = false := by
  induction ks generalizing off bits with
  | nil => simp [addLoop]
  | cons k t ih =>
    simp only [addLoop, ite_self]
    exact ih _ _

/-- `containsLoop` ignores positions below its starting offset. -/
theorem containsLoop_set_lt (ks : List ℕ) (off bps p : ℕ) (v : Bool)
    (bits : List Bool) (hp : p < off) :
    containsLoop ks off bps (bits.set p v) = containsLoop ks off bps bits := by
  induction ks generalizing off with
  | nil => simp [containsLoop]
  | cons k t ih =>
    have hne : p ≠ off + k := by omega
    simp only [containsLoop, bitGet_set_ne bits p (off + k) v hne]
    cases hc : bitGet bits (off + k)
    · simp
    · simpa using ih (off + bps) (by omega)

/-- With `skip_check=False` and the flag initially raised, the final
`found_all_bits` flag is exactly the membership test on the pre-call bit
vector: the addressed positions are strictly increasing, so each check
reads a bit untouched by the earlier iterations of the same call. -/
theorem addLoop_snd (ks : List ℕ) (off bps : ℕ) (bits : List Bool)
    (hk : ∀ k ∈ ks, k < bps) :
    (addLoop false ks off bps bits true).2 = containsLoop ks off bps bits := by
  induction ks generalizing off bits with
  | nil => simp [addLoop, containsLoop]
  | cons k t ih =>
    have hkk : k < bps := hk k (List.mem_cons_self k t)
    have htail : ∀ x ∈ t, x < bps := fun x hx => hk x (List.mem_cons_of_mem k hx)
    simp only [addLoop, containsLoop]
    cases hc : bitGet bits (off + k)
    · simp [addLoop_false_snd]
    · simp
      rw [ih (off + bps) (bits.set (off + k) true) htail,
        containsLoop_set_lt t (off + bps) bps (off + k) true bits (by omega)]

/-- If every set bit of `b1` is set in `b2`, membership in `b1` implies
membership in `b2`. -/
theorem containsLoop_mono (ks : List ℕ) (off bps : ℕ) (b1 b2 : List Bool)
    (hmono : ∀ p, bitGet b1 p = true → bitGet b2 p = true)
    (h : containsLoop ks off bps b1 = true) :
    containsLoop ks off bps b2 = true := by
  induction ks generalizing off with
  | nil => simp [containsLoop]
  | cons k t ih =>
    simp only [containsLoop] at h ⊢
    cases hc : bitGet b1 (off + k)
    · rw [hc] at h
      simp at h
    · rw [hc] at h
      simp only [Bool.not_true, Bool.false_eq_true, if_false] at h
      rw [hmono (off + k) hc]
      simpa using ih (off + bps) (by simpa using h)

/-- After `setBits` over in-range, per-slice-bounded indices, every
addressed bit is set. -/
theorem setBits_contains (ks : List ℕ) (off bps : ℕ) (bits : List Bool)
    (hk : ∀ k ∈ ks, k < bps)
    (hlen : off + ks.length * bps ≤ bits.length) :
    containsLoop ks off bps (setBits ks off bps bits) = true := by
  induction ks generalizing off bits with
  | nil => simp [containsLoop]
  | cons k t ih =>
    have hkk : k < bps := hk k (List.mem_cons_self k t)
    rw [List.length_cons, Nat.succ_mul] at hlen
    have hoff : off + k < bits.length := by
      revert hlen
      generalize t.length * bps = q
      intro hlen
      omega
    simp only [setBits, containsLoop]
    have hset : bitGet (setBits t (off + bps) bps
        (bits.set (off + k) true)) (off + k) = true :=
      bitGet_setBits_mono t (off + bps) bps (off + k) _
        (bitGet_set_self bits (off + k) true hoff)
    rw [hset]
    simp only [Bool.not_true, Bool.false_eq_true, if_false]
    apply ih (off + bps) (bits.set (off + k) true)
      (fun x hx => hk x (List.mem_cons_of_mem k hx))
    rw [List.length_set]
    revert hlen
    generalize t.length * bps = q
    intro hlen
    omega

/-- Dissecting a successful `add`: the guard held, only `bits` and
`count` change, the new bit vector is `setBits`, and `count` grows by at
most one. -/
theorem add_ok_elim {α : Type} (hashes : ℕ → ℕ → α → List ℕ)
    (F : BloomFilter) (key : α) (sc : Bool) (F' : BloomFilter) (b : Bool)
    (h : F.add hashes key sc = .ok (F', b)) :
    F.count ≤ F.capacity ∧ F'.error_rate = F.error_rate ∧
    F'.num_slices = F.num_slices ∧ F'.bits_per_slice = F.bits_per_slice ∧
    F'.capacity = F.capacity ∧
    F'.bits = setBits (hashes F.num_slices F.bits_per_slice key) 0
      F.bits_per_slice F.bits ∧
    (F'.count = F.count ∨ F'.count = F.count + 1) := by
  unfold BloomFilter.add at h
  split at h
  · exact absurd h (by simp)
  next hguard =>
    refine ⟨by omega, ?_⟩
    split at h
    · simp only [Except.ok.injEq, Prod.mk.injEq] at h
      obtain ⟨hF', hb⟩ := h
      subst hF'
      simp [addLoop_fst]
    · dsimp only at h
      split at h
      · simp only [Except.ok.injEq, Prod.mk.injEq] at h
        obtain ⟨hF', hb⟩ := h
        subst hF'
        simp [addLoop_fst]
      · simp only [Except.ok.injEq, Prod.mk.injEq] at h
        obtain ⟨hF', hb⟩ := h
        subst hF'
        simp [addLoop_fst]

/-- `add` succeeds whenever `count <= capacity`. -/
theorem add_ok_of_le {α : Type} (hashes : ℕ → ℕ → α → List ℕ)
    (F : BloomFilter) (key : α) (sc : Bool) (h : F.count ≤ F.capacity) :
    ∃ F' b, F.add hashes key sc = .ok (F', b) := by
  unfold BloomFilter.add
  rw [if_neg (by omega)]
  dsimp only
  split
  · exact ⟨_, _, rfl⟩
  · split
    · exact ⟨_, _, rfl⟩
    · exact ⟨_, _, rfl⟩

/-- `add` raises IndexError exactly on the `count > capacity` guard. -/
theorem add_error_of_gt {α : Type} (hashes : ℕ → ℕ → α → List ℕ)
    (F : BloomFilter) (key : α) (sc : Bool) (h : F.count > F.capacity) :
    F.add hashes key sc = .error "BloomFilter is at capacity" := by
  unfold BloomFilter.add
  rw [if_pos h]

/-- Conversely, an error from `add` can only be the capacity guard. -/
theorem add_error_elim {α : Type} (hashes : ℕ → ℕ → α → List ℕ)
    (F : BloomFilter) (key : α) (sc : Bool) (e : String)
    (h : F.add hashes key sc = .error e) :
    F.count > F.capacity ∧ e = "BloomFilter is at capacity" := by
  by_cases hg : F.count > F.capacity
  · refine ⟨hg, ?_⟩
    rw [add_error_of_gt hashes F key sc hg] at h
    exact (Except.error.injEq _ _ ▸ h).symm
  · obtain ⟨F', b, hok⟩ := add_ok_of_le hashes F key sc (by omega)
    rw [hok] at h
    exact absurd h (by simp)

/-- `add` preserves well-formedness. -/
theorem add_wf {α : Type} (hashes : ℕ → ℕ → α → List ℕ)
    (F : BloomFilter) (key : α) (sc : Bool) (F' : BloomFilter) (b : Bool)
    (hwf : F.WellFormed) (h : F.add hashes key sc = .ok (F', b)) :
    F'.WellFormed := by
  obtain ⟨-, -, hns, hbps, -, hbits, -⟩ := add_ok_elim hashes F key sc F' b h
  constructor
  · rw [hbps]
    exact hwf.1
  · rw [hbits, length_setBits, hwf.2]
    unfold BloomFilter.num_bits
    rw [hns, hbps]

/-- Right after a successful `add` of `key`, `contains key` holds. -/
theorem contains_after_add {α : Type} (hashes : ℕ → ℕ → α → List ℕ)
    (hv : HashValid hashes) (F : BloomFilter) (hwf : F.WellFormed)
    (key : α) (sc : Bool) (F' : BloomFilter) (b : Bool)
    (h : F.add hashes key sc = .ok (F', b)) :
    F'.containsKey hashes key = true := by
  obtain ⟨-, -, hns, hbps, -, hbits, -⟩ := add_ok_elim hashes F key sc F' b h
  unfold BloomFilter.containsKey
  rw [hns, hbps, hbits]
  obtain ⟨hlen, hbound⟩ := hv F.num_slices F.bits_per_slice key hwf.1
  apply setBits_contains _ _ _ _ hbound
  rw [hlen, hwf.2]
  unfold BloomFilter.num_bits
  simp

/-- The concrete witness hash engine is valid. -/
theorem modHashes_valid : HashValid modHashes := by
  intro n m key hm
  constructor
  · simp [modHashes]
  · intro x hx
    simp only [modHashes, List.mem_map, List.mem_range] at hx
    obtain ⟨s, hs, rfl⟩ := hx
    exact Nat.mod_lt _ hm

/-- `addSeq` preserves the geometry fields and well-formedness, and
never clears a set bit. -/
theorem addSeq_elim {α : Type} (hashes : ℕ → ℕ → α → List ℕ)
    (seq : List (α × Bool)) (F F' : BloomFilter) (hwf : F.WellFormed)
    (h : addSeq hashes F seq = .ok F') :
    F'.num_slices = F.num_slices ∧ F'.bits_per_slice = F.bits_per_slice ∧
    F'.WellFormed ∧
    ∀ p, bitGet F.bits p = true → bitGet F'.bits p = true := by
  induction seq generalizing F with
  | nil =>
    simp only [addSeq, Except.ok.injEq] at h
    subst h
    exact ⟨rfl, rfl, hwf, fun p hp => hp⟩
  | cons hd tl ih =>
    obtain ⟨key, sc⟩ := hd
    simp only [addSeq] at h
    split at h
    · exact absurd h (by simp)
    next F1 b heq =>
      obtain ⟨hns, hbps, hwf', hmono⟩ :=
        ih F1 (add_wf hashes F key sc F1 b hwf heq) h
      obtain ⟨-, -, hns1, hbps1, -, hbits1, -⟩ :=
        add_ok_elim hashes F key sc F1 b heq
      refine ⟨hns.trans hns1, hbps.trans hbps1, hwf', fun p hp => ?_⟩
      apply hmono
      rw [hbits1]
      exact bitGet_setBits_mono _ _ _ _ _ hp

/-- Containment is preserved along any further sequence of adds. -/
theorem contains_preserved_addSeq {α : Type} (hashes : ℕ → ℕ → α → List ℕ)
    (seq : List (α × Bool)) (F F' : BloomFilter) (key : α)
    (hwf : F.WellFormed) (h : addSeq hashes F seq = .ok F')
    (hc : F.containsKey hashes key = true) :
    F'.containsKey hashes key = true := by
  obtain ⟨hns, hbps, -, hmono⟩ := addSeq_elim hashes seq F F' hwf h
  unfold BloomFilter.containsKey at hc ⊢
  rw [hns, hbps]
  exact containsLoop_mono _ _ _ _ _ hmono hc

/-- C1. No false negatives: with a deterministic, in-range hash engine
and a well-formed filter, after any sequence of `add` calls (with or
without `skip_check`) that completes without error, every inserted key
is reported contained — set bits are never cleared. -/
theorem claim_C1_no_false_negatives {α : Type}
    (hashes : ℕ → ℕ → α → List ℕ) (hv : HashValid hashes)
    (F0 : BloomFilter) (hwf : F0.WellFormed)
    (seq : List (α × Bool)) (F' : BloomFilter)
    (h : addSeq hashes F0 seq = .ok F')
    (key : α) (sc : Bool) (hmem : (key, sc) ∈ seq) :
    F'.containsKey hashes key = true := by
  induction seq generalizing F0 with
  | nil => simp at hmem
  | cons hd tl ih =>
    obtain ⟨k0, sc0⟩ := hd
    simp only [addSeq] at h
    split at h
    · exact absurd h (by simp)
    next F1 b heq =>
      rcases List.mem_cons.mp hmem with hcase | hcase
      · have hk : key = k0 := congrArg Prod.fst hcase
        subst hk
        have hc1 : F1.containsKey hashes key = true :=
          contains_after_add hashes hv F0 hwf key sc0 F1 b heq
        exact contains_preserved_addSeq hashes tl F1 F' key
          (add_wf hashes F0 key sc0 F1 b hwf heq) h hc1
      · exact ih F1 (add_wf hashes F0 k0 sc0 F1 b hwf heq) h hcase

/-- C2. `add` return/count semantics with `count` within `capacity`:
`skip_check=True` always sets the bits, increments `count`, returns
`False`; `skip_check=False` returns `True` with `count` unchanged when
every addressed bit was already set, else sets the bits, increments
`count`, returns `False`. -/
theorem claim_C2_add_semantics {α : Type}
    (hashes : ℕ → ℕ → α → List ℕ) (hv : HashValid hashes)
    (F : BloomFilter) (hwf : F.WellFormed) (hcap : F.count ≤ F.capacity)
    (key : α) :
    (∃ F', F.add hashes key true = .ok (F', false) ∧
      F'.count = F.count + 1 ∧ F'.containsKey hashes key = true) ∧
    (F.containsKey hashes key = true →
      ∃ F', F.add hashes key false = .ok (F', true) ∧ F'.count = F.count) ∧
    (F.containsKey hashes key = false →
      ∃ F', F.add hashes key false = .ok (F', false) ∧
        F'.count = F.count + 1 ∧ F'.containsKey hashes key = true) := by
  refine ⟨?_, ?_, ?_⟩
  · have h1 : F.add hashes key true = .ok
        ({ F with
          bits := (addLoop true (hashes F.num_slices F.bits_per_slice key)
            0 F.bits_per_slice F.bits true).1,
          count := F.count + 1 }, false) := by
      unfold BloomFilter.add
      rw [if_neg (by omega)]
      rfl
    exact ⟨_, h1, rfl,
      contains_after_add hashes hv F hwf key true _ false h1⟩
  · intro hct
    have hsnd : (addLoop false (hashes F.num_slices F.bits_per_slice key)
        0 F.bits_per_slice F.bits true).2 = true := by
      rw [addLoop_snd _ _ _ _ (hv F.num_slices F.bits_per_slice key hwf.1).2]
      exact hct
    have h2 : F.add hashes key false = .ok
        ({ F with
          bits := (addLoop false (hashes F.num_slices F.bits_per_slice key)
            0 F.bits_per_slice F.bits true).1 }, true) := by
      unfold BloomFilter.add
      rw [if_neg (by omega)]
      dsimp only
      rw [hsnd]
      rfl
    exact ⟨_, h2, rfl⟩
  · intro hcf
    have hsnd : (addLoop false (hashes F.num_slices F.bits_per_slice key)
        0 F.bits_per_slice F.bits true).2 = false := by
      rw [addLoop_snd _ _ _ _ (hv F.num_slices F.bits_per_slice key hwf.1).2]
      exact hcf
    have h3 : F.add hashes key false = .ok
        ({ F with
          bits := (addLoop false (hashes F.num_slices F.bits_per_slice key)
            0 F.bits_per_slice F.bits true).1,
          count := F.count + 1 }, false) := by
      unfold BloomFilter.add
      rw [if_neg (by omega)]
      dsimp only
      rw [hsnd]
      rfl
    exact ⟨_, h3, rfl,
      contains_after_add hashes hv F hwf key false _ false h3⟩

/-- Witness for C2 at a concrete filter: bit 3 set, `count = 1`,
`capacity = 5`; key 3 is a duplicate, key 4 is fresh. -/
theorem claim_C2_add_semantics_witness :
    (∃ F', BloomFilter.add modHashes
        ⟨1/2, 1, 8, 5, 1, [false, false, false, true, false, false, false, false]⟩
        3 true = .ok (F', false) ∧ F'.count = 2 ∧
        F'.containsKey modHashes 3 = true) ∧
    (∃ F', BloomFilter.add modHashes
        ⟨1/2, 1, 8, 5, 1, [false, false, false, true, false, false, false, false]⟩
        3 false = .ok (F', true) ∧ F'.count = 1) ∧
    (∃ F', BloomFilter.add modHashes
        ⟨1/2, 1, 8, 5, 1, [false, false, false, true, false, false, false, false]⟩
        4 false = .ok (F', false) ∧ F'.count = 2 ∧
        F'.containsKey modHashes 4 = true) := by
  have h3 := claim_C2_add_semantics modHashes modHashes_valid
    ⟨1/2, 1, 8, 5, 1, [false, false, false, true, false, false, false, false]⟩
    ⟨by decide, by decide⟩ (by decide) 3
  have h4 := claim_C2_add_semantics modHashes modHashes_valid
    ⟨1/2, 1, 8, 5, 1, [false, false, false, true, false, false, false, false]⟩
    ⟨by decide, by decide⟩ (by decide) 4
  exact ⟨h3.1, h3.2.1 (by rfl), h4.2.2 (by rfl)⟩

/-- Witness for C1: one insert into a concrete 8-bit filter. -/
theorem claim_C1_no_false_negatives_witness :
    BloomFilter.containsKey modHashes
      ⟨1/2, 1, 8, 5, 1, [false, false, false, true, false, false, false, false]⟩
      3 = true :=
  claim_C1_no_false_negatives modHashes modHashes_valid
    ⟨1/2, 1, 8, 5, 0, List.replicate 8 false⟩ ⟨by decide, by decide⟩
    [(3, false)]
    ⟨1/2, 1, 8, 5, 1, [false, false, false, true, false, false, false, false]⟩
    (by rfl) 3 false (by decide)

/-- Dissecting a successful `BloomFilter.__init__`. -/
theorem init_ok_elim (derive : ℚ → ℕ → ℕ × ℕ) (cap : ℕ) (p : ℚ)
    (F0 : BloomFilter) (h : BloomFilter.init derive cap p = .ok F0) :
    0 < p ∧ p < 1 ∧ 0 < cap ∧
    F0 = ⟨p, (derive p cap).1, (derive p cap).2, cap, 0,
      List.replicate ((derive p cap).1 * (derive p cap).2) false⟩ := by
  unfold BloomFilter.init at h
  split at h
  · exact absurd h (by simp)
  next h1 =>
    split at h
    · exact absurd h (by simp)
    next h2 =>
      rw [not_not] at h1
      rw [not_not] at h2
      simp only [Except.ok.injEq] at h
      exact ⟨h1.1, h1.2, h2, h.symm⟩

/-- `BloomFilter.__init__` succeeds on valid parameters. -/
theorem init_ok_of (derive : ℚ → ℕ → ℕ × ℕ) (cap : ℕ) (p : ℚ)
    (h1 : 0 < p) (h2 : p < 1) (h3 : 0 < cap) :
    BloomFilter.init derive cap p
      = .ok ⟨p, (derive p cap).1, (derive p cap).2, cap, 0,
        List.replicate ((derive p cap).1 * (derive p cap).2) false⟩ := by
  unfold BloomFilter.init
  rw [if_neg (not_not_intro ⟨h1, h2⟩), if_neg (not_not_intro h3)]

/-- An error from `BloomFilter.__init__` is one of the two ValueErrors. -/
theorem init_error_elim (derive : ℚ → ℕ → ℕ × ℕ) (cap : ℕ) (p : ℚ)
    (e : String) (h : BloomFilter.init derive cap p = .error e) :
    e = "Error_Rate must be between 0 and 1." ∨ e = "Capacity must be > 0" := by
  unfold BloomFilter.init at h
  split at h
  · simp only [Except.error.injEq] at h
    exact Or.inl h.symm
  · split at h
    · simp only [Except.error.injEq] at h
      exact Or.inr h.symm
    · exact absurd h (by simp)

/-- `addSeq` keeps `count` within `capacity + 1`: a successful `add`
requires `count <= capacity` beforehand and grows `count` by at most
one, and `capacity` never changes. -/
theorem addSeq_count_le {α : Type} (hashes : ℕ → ℕ → α → List ℕ)
    (seq : List (α × Bool)) (F F' : BloomFilter)
    (hinv : F.count ≤ F.capacity + 1) (h : addSeq hashes F seq = .ok F') :
    F'.count ≤ F'.capacity + 1 := by
  induction seq generalizing F with
  | nil =>
    simp only [addSeq, Except.ok.injEq] at h
    subst h
    exact hinv
  | cons hd tl ih =>
    obtain ⟨key, sc⟩ := hd
    simp only [addSeq] at h
    split at h
    · exact absurd h (by simp)
    next F1 b heq =>
      obtain ⟨hle, -, -, -, hcap, -, hcount⟩ :=
        add_ok_elim hashes F key sc F1 b heq
      exact ih F1 (by omega) h

/-- C5 (amended). `add` raises the Saturated IndexError exactly when
`count > capacity` at call time; the guard is strict, so the first
`add` at `count == capacity` still succeeds, and `count` on any state
reachable from a constructed filter is bounded by `capacity + 1`, not
`capacity`. -/
theorem claim_C5_saturation_amended {α : Type} :
    (∀ (hashes : ℕ → ℕ → α → List ℕ) (F : BloomFilter) (key : α)
      (sc : Bool),
      (F.count > F.capacity →
        F.add hashes key sc = .error "BloomFilter is at capacity") ∧
      (F.count ≤ F.capacity →
        ∃ F' b, F.add hashes key sc = .ok (F', b))) ∧
    (∀ (derive : ℚ → ℕ → ℕ × ℕ) (hashes : ℕ → ℕ → α → List ℕ)
      (cap : ℕ) (p : ℚ) (F0 : BloomFilter) (seq : List (α × Bool))
      (F' : BloomFilter), BloomFilter.init derive cap p = .ok F0 →
      addSeq hashes F0 seq = .ok F' → F'.count ≤ F'.capacity + 1) := by
  constructor
  · intro hashes F key sc
    exact ⟨add_error_of_gt hashes F key sc, add_ok_of_le hashes F key sc⟩
  · intro derive hashes cap p F0 seq F' hinit hseq
    obtain ⟨-, -, -, hF0⟩ := init_ok_elim derive cap p F0 hinit
    apply addSeq_count_le hashes seq F0 F' _ hseq
    rw [hF0]
    exact Nat.zero_le _

/-- Counterexample for C5 as stated: a filter constructed with
`capacity = 1` accepts a second insert made at `count == capacity`
without error, reaching `count = 2 > capacity`. -/
theorem claim_C5_saturation_counterexample :
    BloomFilter.init exDerive 1 (1/2)
      = .ok ⟨1/2, 1, 8, 1, 0, List.replicate 8 false⟩ ∧
    addSeq modHashes ⟨1/2, 1, 8, 1, 0, List.replicate 8 false⟩
      [(0, false), (1, false)]
      = .ok ⟨1/2, 1, 8, 1, 2,
        [true, true, false, false, false, false, false, false]⟩ ∧
    (2 : ℕ) > 1 := by
  refine ⟨?_, by rfl, by decide⟩
  simp [BloomFilter.init, exDerive, show (2:ℚ)⁻¹ < 1 by norm_num]

/-- Witness for C5 (amended): the guard fires at `count = 2 > 1`, an
`add` at `count = capacity = 1` succeeds, and the reachable filter of
the counterexample satisfies the `capacity + 1` bound. -/
theorem claim_C5_saturation_amended_witness :
    BloomFilter.add modHashes ⟨1/2, 1, 8, 1, 2, List.replicate 8 false⟩
      0 false = .error "BloomFilter is at capacity" ∧
    (∃ F' b, BloomFilter.add modHashes
      ⟨1/2, 1, 8, 1, 1, [true, false, false, false, false, false, false, false]⟩
      1 false = .ok (F', b)) ∧
    (2 : ℕ) ≤ 1 + 1 :=
  ⟨(claim_C5_saturation_amended.1 modHashes
      ⟨1/2, 1, 8, 1, 2, List.replicate 8 false⟩ 0 false).1 (by decide),
   (claim_C5_saturation_amended.1 modHashes
      ⟨1/2, 1, 8, 1, 1, [true, false, false, false, false, false, false, false]⟩
      1 false).2 (by decide),
   claim_C5_saturation_amended.2 exDerive modHashes 1 (1/2)
     ⟨1/2, 1, 8, 1, 0, List.replicate 8 false⟩ [(0, false), (1, false)]
     ⟨1/2, 1, 8, 1, 2, [true, true, false, false, false, false, false, false]⟩
     (by simp [BloomFilter.init, exDerive, show (2:ℚ)⁻¹ < 1 by norm_num])
     (by rfl)⟩

/-- C7. `ScalableBloomFilter.add` never raises the Saturated
IndexError: the filter it delegates to is either freshly constructed
(`count = 0`) or strictly below capacity, so the inner guard never
fires (construction of a new generation can still raise the
constructor ValueErrors for out-of-range parameters, but never the
capacity error). -/
theorem claim_C7_sbf_add_never_saturated {α : Type}
    (derive : ℚ → ℕ → ℕ × ℕ) (hashes : ℕ → ℕ → α → List ℕ)
    (S : ScalableBloomFilter) (key : α) :
    S.add derive hashes key ≠ .error "BloomFilter is at capacity" := by
  unfold ScalableBloomFilter.add
  split
  · simp
  · split
    next hnone =>
      cases hinit : BloomFilter.init derive S.initial_capacity
          (S.error_rate * (1 - S.ratio)) with
      | error e =>
        simp only [hinit]
        rcases init_error_elim _ _ _ e hinit with he | he <;>
          simp [he]
      | ok fresh =>
        simp only [hinit]
        obtain ⟨-, -, -, hF0⟩ := init_ok_elim _ _ _ fresh hinit
        obtain ⟨F', b, hok⟩ := add_ok_of_le hashes fresh key true
          (by rw [hF0]; exact Nat.zero_le _)
        simp [hok]
    next last hsome =>
      split
      · cases hinit : BloomFilter.init derive (last.capacity * S.scale)
            (last.error_rate * S.ratio) with
        | error e =>
          simp only [hinit]
          rcases init_error_elim _ _ _ e hinit with he | he <;>
            simp [he]
        | ok fresh =>
          simp only [hinit]
          obtain ⟨-, -, -, hF0⟩ := init_ok_elim _ _ _ fresh hinit
          obtain ⟨F', b, hok⟩ := add_ok_of_le hashes fresh key true
            (by rw [hF0]; exact Nat.zero_le _)
          simp [hok]
      next hfull =>
        push_neg at hfull
        obtain ⟨F', b, hok⟩ := add_ok_of_le hashes last key true (by omega)
        simp [hok]

/-- C8 (amended). `ScalableBloomFilter.__init__` validates only
`error_rate`: it raises its ValueError exactly when `error_rate <= 0`
(the code checks `not error_rate or error_rate < 0`), stores
`(mode, 0.9, initial_capacity, error_rate)` and an empty filter list
otherwise, and performs no check on `initial_capacity`, on `mode`, or
against `error_rate >= 1`. -/
theorem claim_C8_sbf_init_amended (ic : ℕ) (p : ℚ) (m : ℕ) :
    ScalableBloomFilter.init ic p m =
      (if 0 < p then .ok ⟨m, 9/10, ic, p, []⟩
       else .error "Error_Rate must be a decimal less than 0.") := by
  unfold ScalableBloomFilter.init
  by_cases hp : 0 < p
  · have h1 : ¬(p = 0 ∨ p < 0) := by
      push_neg
      exact ⟨ne_of_gt hp, by linarith⟩
    rw [if_neg h1, if_pos hp]
  · have h1 : p = 0 ∨ p < 0 := by
      rcases lt_trichotomy p 0 with h | h | h
      · exact Or.inr h
      · exact Or.inl h
      · exact absurd h hp
    rw [if_pos h1, if_neg hp]

/-- Counterexample for C8 as stated: `error_rate = 2` (not in `(0,1)`),
`initial_capacity = 0`, and `mode = 3` (neither SMALL nor LARGE) are
all accepted by the constructor, which the claim says must fail. -/
theorem claim_C8_sbf_init_counterexample :
    ScalableBloomFilter.init 0 2 3 = .ok ⟨3, 9/10, 0, 2, []⟩ ∧
    ¬((0:ℚ) < 2 ∧ (2:ℚ) < 1) ∧ (0:ℕ) ≤ 0 ∧ (3:ℕ) ≠ 2 ∧ (3:ℕ) ≠ 4 := by
  refine ⟨by simp [ScalableBloomFilter.init], ?_, by decide, by decide,
    by decide⟩
  rintro ⟨-, h⟩
  norm_num at h

/-- `add` with `skip_check=True` below the guard, as an equation. -/
theorem add_skip_eq {α : Type} (hashes : ℕ → ℕ → α → List ℕ)
    (F : BloomFilter) (key : α) (h : F.count ≤ F.capacity) :
    F.add hashes key true = .ok
      ({ F with
        bits := (addLoop true (hashes F.num_slices F.bits_per_slice key)
          0 F.bits_per_slice F.bits true).1,
        count := F.count + 1 }, false) := by
  unfold BloomFilter.add
  rw [if_neg (by omega)]
  rfl

/-- C3. The `ScalableBloomFilter.add` algorithm, on a parameter-valid
SBF: containment short-circuits with `True` and no mutation; on an
empty filter list a first generation with `capacity = initial_capacity`
and `error_rate = error_rate * (1 - ratio)` is appended; on a full last
generation a new one with `capacity = last.capacity * scale` and
`error_rate = last.error_rate * ratio` is appended; the key goes into
the last filter with `skip_check=True` and the call returns `False`. -/
theorem claim_C3_sbf_add_algorithm {α : Type}
    (derive : ℚ → ℕ → ℕ × ℕ) (hashes : ℕ → ℕ → α → List ℕ)
    (S : ScalableBloomFilter) (hS : S.Valid) (key : α) :
    (S.containsKey hashes key = true →
      S.add derive hashes key = .ok (S, true)) ∧
    (S.containsKey hashes key = false → S.filters = [] →
      ∃ F1, S.add derive hashes key
          = .ok ({ S with filters := [F1] }, false) ∧
        F1.capacity = S.initial_capacity ∧
        F1.error_rate = S.error_rate * (1 - S.ratio) ∧ F1.count = 1) ∧
    (∀ last, S.containsKey hashes key = false →
      S.filters.getLast? = some last → last.count ≥ last.capacity →
      ∃ F1, S.add derive hashes key
          = .ok ({ S with filters := S.filters ++ [F1] }, false) ∧
        F1.capacity = last.capacity * S.scale ∧
        F1.error_rate = last.error_rate * S.ratio ∧ F1.count = 1) ∧
    (∀ last, S.containsKey hashes key = false →
      S.filters.getLast? = some last → last.count < last.capacity →
      ∃ F1 b, last.add hashes key true = .ok (F1, b) ∧
        S.add derive hashes key
          = .ok ({ S with filters := S.filters.dropLast ++ [F1] }, false)) := by
  obtain ⟨hr0, hr1, he0, he1, hic, hsc, hfs⟩ := hS
  refine ⟨?_, ?_, ?_, ?_⟩
  · intro hct
    unfold ScalableBloomFilter.add
    rw [if_pos hct]
  · intro hcf hempty
    unfold ScalableBloomFilter.add
    rw [if_neg (by simp [hcf])]
    have hnone : S.filters.getLast? = none := by
      rw [hempty]
      rfl
    have hp1 : 0 < S.error_rate * (1 - S.ratio) :=
      mul_pos he0 (by linarith)
    have hp2 : S.error_rate * (1 - S.ratio) < 1 := by
      nlinarith
    cases hinit : BloomFilter.init derive S.initial_capacity
        (S.error_rate * (1 - S.ratio)) with
    | error e =>
      rw [init_ok_of derive S.initial_capacity _ hp1 hp2 hic] at hinit
      exact absurd hinit (by simp)
    | ok fresh =>
      obtain ⟨-, -, -, hF⟩ := init_ok_elim _ _ _ _ hinit
      have hc0 : fresh.count = 0 := by
        rw [hF]
      have hcap : fresh.capacity = S.initial_capacity := by
        rw [hF]
      have herr : fresh.error_rate = S.error_rate * (1 - S.ratio) := by
        rw [hF]
      simp only [hnone, hinit]
      rw [add_skip_eq hashes fresh key (by omega)]
      refine ⟨{ fresh with
          bits := (addLoop true (hashes fresh.num_slices fresh.bits_per_slice
            key) 0 fresh.bits_per_slice fresh.bits true).1,
          count := fresh.count + 1 }, ?_, ?_, ?_, ?_⟩
      · simp [hempty]
      · exact hcap
      · exact herr
      · show fresh.count + 1 = 1
        rw [hc0]
  · intro last hcf hsome hfull
    unfold ScalableBloomFilter.add
    rw [if_neg (by simp [hcf])]
    simp only [hsome]
    rw [if_pos hfull]
    have hlmem := hfs last (List.mem_of_getLast?_eq_some hsome)
    have hp1 : 0 < last.error_rate * S.ratio := mul_pos hlmem.1 hr0
    have hp2 : last.error_rate * S.ratio < 1 := by
      nlinarith [hlmem.1, hlmem.2.1]
    have hp3 : 0 < last.capacity * S.scale := Nat.mul_pos hlmem.2.2 hsc
    cases hinit : BloomFilter.init derive (last.capacity * S.scale)
        (last.error_rate * S.ratio) with
    | error e =>
      rw [init_ok_of derive (last.capacity * S.scale) _ hp1 hp2 hp3] at hinit
      exact absurd hinit (by simp)
    | ok fresh =>
      obtain ⟨-, -, -, hF⟩ := init_ok_elim _ _ _ _ hinit
      have hc0 : fresh.count = 0 := by
        rw [hF]
      have hcap : fresh.capacity = last.capacity * S.scale := by
        rw [hF]
      have herr : fresh.error_rate = last.error_rate * S.ratio := by
        rw [hF]
      simp only [hinit]
      rw [add_skip_eq hashes fresh key (by omega)]
      refine ⟨{ fresh with
          bits := (addLoop true (hashes fresh.num_slices fresh.bits_per_slice
            key) 0 fresh.bits_per_slice fresh.bits true).1,
          count := fresh.count + 1 }, ?_, ?_, ?_, ?_⟩
      · rfl
      · exact hcap
      · exact herr
      · show fresh.count + 1 = 1
        rw [hc0]
  · intro last hcf hsome hlt
    unfold ScalableBloomFilter.add
    rw [if_neg (by simp [hcf])]
    simp only [hsome]
    rw [if_neg (by omega)]
    obtain ⟨F1, b, hok⟩ := add_ok_of_le hashes last key true (by omega)
    rw [hok]
    exact ⟨F1, b, rfl, rfl⟩

/-- Witness for C3, covering all four branches on concrete SBFs:
a duplicate key, a first insert, a full last generation, and a last
generation with room. -/
theorem claim_C3_sbf_add_algorithm_witness :
    (ScalableBloomFilter.add exDerive modHashes
      ⟨2, 9/10, 2, 1/2,
        [⟨1/2, 1, 8, 5, 1, [false, false, false, true, false, false, false, false]⟩]⟩ 3
      = .ok (⟨2, 9/10, 2, 1/2,
        [⟨1/2, 1, 8, 5, 1, [false, false, false, true, false, false, false, false]⟩]⟩, true)) ∧
    (∃ F1, ScalableBloomFilter.add exDerive modHashes ⟨2, 9/10, 2, 1/2, []⟩ 3
        = .ok (⟨2, 9/10, 2, 1/2, [F1]⟩, false) ∧
      F1.capacity = 2 ∧ F1.error_rate = 1/2 * (1 - 9/10) ∧ F1.count = 1) ∧
    (∃ F1, ScalableBloomFilter.add exDerive modHashes
        ⟨2, 9/10, 2, 1/2,
          [⟨1/2, 1, 8, 1, 1, [true, false, false, false, false, false, false, false]⟩]⟩ 3
        = .ok (⟨2, 9/10, 2, 1/2,
          [⟨1/2, 1, 8, 1, 1, [true, false, false, false, false, false, false, false]⟩, F1]⟩,
          false) ∧
      F1.capacity = 1 * 2 ∧ F1.error_rate = 1/2 * (9/10) ∧ F1.count = 1) ∧
    (∃ F1 b, BloomFilter.add modHashes
        ⟨1/2, 1, 8, 5, 1, [true, false, false, false, false, false, false, false]⟩ 3 true
        = .ok (F1, b) ∧
      ScalableBloomFilter.add exDerive modHashes
        ⟨2, 9/10, 2, 1/2,
          [⟨1/2, 1, 8, 5, 1, [true, false, false, false, false, false, false, false]⟩]⟩ 3
        = .ok (⟨2, 9/10, 2, 1/2, [F1]⟩, false)) :=
  ⟨(claim_C3_sbf_add_algorithm exDerive modHashes
      ⟨2, 9/10, 2, 1/2,
        [⟨1/2, 1, 8, 5, 1, [false, false, false, true, false, false, false, false]⟩]⟩
      ⟨nineTenthsPos, nineTenthsLtOne, halfPos, halfLtOne, by decide, by decide,
        by
          intro F hF
          simp only [List.mem_singleton] at hF
          subst hF
          exact ⟨halfPos, halfLtOne, by decide⟩⟩ 3).1 (by rfl),
   (claim_C3_sbf_add_algorithm exDerive modHashes ⟨2, 9/10, 2, 1/2, []⟩
      ⟨nineTenthsPos, nineTenthsLtOne, halfPos, halfLtOne, by decide, by decide,
        by simp⟩ 3).2.1 (by rfl) rfl,
   (claim_C3_sbf_add_algorithm exDerive modHashes
      ⟨2, 9/10, 2, 1/2,
        [⟨1/2, 1, 8, 1, 1, [true, false, false, false, false, false, false, false]⟩]⟩
      ⟨nineTenthsPos, nineTenthsLtOne, halfPos, halfLtOne, by decide, by decide,
        by
          intro F hF
          simp only [List.mem_singleton] at hF
          subst hF
          exact ⟨halfPos, halfLtOne, by decide⟩⟩ 3).2.2.1
     ⟨1/2, 1, 8, 1, 1, [true, false, false, false, false, false, false, false]⟩
     (by rfl) rfl (by decide),
   (claim_C3_sbf_add_algorithm exDerive modHashes
      ⟨2, 9/10, 2, 1/2,
        [⟨1/2, 1, 8, 5, 1, [true, false, false, false, false, false, false, false]⟩]⟩
      ⟨nineTenthsPos, nineTenthsLtOne, halfPos, halfLtOne, by decide, by decide,
        by
          intro F hF
          simp only [List.mem_singleton] at hF
          subst hF
          exact ⟨halfPos, halfLtOne, by decide⟩⟩ 3).2.2.2
     ⟨1/2, 1, 8, 5, 1, [true, false, false, false, false, false, false, false]⟩
     (by rfl) rfl (by decide)⟩

/-- Round-tripping a single filter through `tofile`/`fromfile`: the
length check passes and the reloaded filter carries the same header
fields with the bit vector padded to a whole byte. -/
theorem fromfile_tofile (F : BloomFilter) (hwf : F.bits.length = F.num_bits) :
    BloomFilter.fromfile F.tofile = .ok
      ⟨F.error_rate, F.num_slices, F.bits_per_slice, F.capacity, F.count,
        F.bits ++ List.replicate ((8 - F.bits.length % 8) % 8) false⟩ := by
  unfold BloomFilter.fromfile BloomFilter.tofile
  dsimp only
  rw [bytesToBits_bitsToBytes]
  rw [if_neg]
  simp only [BloomFilter.num_bits, List.length_append, List.length_replicate]
  unfold BloomFilter.num_bits at hwf
  rw [← hwf]
  omega

/-- Reading back a list of serialized filters. -/
theorem mapM_fromfile_tofile (fs : List BloomFilter)
    (hwf : ∀ F ∈ fs, F.bits.length = F.num_bits) :
    ∃ gs, (fs.map BloomFilter.tofile).mapM BloomFilter.fromfile = .ok gs ∧
      List.Forall₂ RoundTripRel fs gs := by
  induction fs with
  | nil => exact ⟨[], rfl, List.Forall₂.nil⟩
  | cons F t ih =>
    obtain ⟨gs, hgs, hrel⟩ := ih (fun F hF => hwf F (List.mem_cons_of_mem _ hF))
    refine ⟨⟨F.error_rate, F.num_slices, F.bits_per_slice, F.capacity, F.count,
        F.bits ++ List.replicate ((8 - F.bits.length % 8) % 8) false⟩ :: gs,
      ?_, ?_⟩
    · simp only [List.map_cons, List.mapM_cons,
        fromfile_tofile F (hwf F (List.mem_cons_self F t)), hgs]
      rfl
    · exact List.Forall₂.cons ⟨rfl, rfl, rfl, rfl, rfl, rfl⟩ hrel

/-- C4 (amended). Serialization round-trip: reloading `tofile(F)` via
`fromfile` restores every header field (`error_rate`, `num_slices`,
`bits_per_slice`, `capacity`, `count`) exactly, and restores the bit
vector up to zero-padding to the next byte boundary (exactly when
`num_bits` is a multiple of 8); the same holds per embedded filter for
the Scalable Bloom Filter, whose own header fields round-trip
exactly. -/
theorem claim_C4_roundtrip_amended :
    (∀ F : BloomFilter, F.bits.length = F.num_bits →
      ∃ G, BloomFilter.fromfile F.tofile = .ok G ∧ RoundTripRel F G) ∧
    (∀ S : ScalableBloomFilter,
      (∀ F ∈ S.filters, F.bits.length = F.num_bits) →
      ∃ T, ScalableBloomFilter.fromfile S.tofile = .ok T ∧
        T.scale = S.scale ∧ T.ratio = S.ratio ∧
        T.initial_capacity = S.initial_capacity ∧
        T.error_rate = S.error_rate ∧
        List.Forall₂ RoundTripRel S.filters T.filters) := by
  constructor
  · intro F hwf
    exact ⟨_, fromfile_tofile F hwf, rfl, rfl, rfl, rfl, rfl, rfl⟩
  · intro S hwf
    obtain ⟨gs, hgs, hrel⟩ := mapM_fromfile_tofile S.filters hwf
    refine ⟨⟨S.scale, S.ratio, S.initial_capacity, S.error_rate, gs⟩, ?_,
      rfl, rfl, rfl, rfl, hrel⟩
    unfold ScalableBloomFilter.fromfile ScalableBloomFilter.tofile
    dsimp only
    rw [hgs]
    rfl

/-- Witness for C4 (amended) on a concrete byte-aligned filter and a
one-generation SBF. -/
theorem claim_C4_roundtrip_amended_witness :
    (∃ G, BloomFilter.fromfile (BloomFilter.tofile
        ⟨1/2, 1, 8, 5, 2, [true, false, false, true, false, false, false, false]⟩)
      = .ok G ∧ RoundTripRel
        ⟨1/2, 1, 8, 5, 2, [true, false, false, true, false, false, false, false]⟩ G) ∧
    (∃ T, ScalableBloomFilter.fromfile (ScalableBloomFilter.tofile
        ⟨2, 9/10, 2, 1/2,
          [⟨1/2, 1, 8, 5, 2, [true, false, false, true, false, false, false, false]⟩]⟩)
      = .ok T ∧ T.scale = 2 ∧ T.ratio = 9/10 ∧ T.initial_capacity = 2 ∧
      T.error_rate = 1/2 ∧ List.Forall₂ RoundTripRel
        [⟨1/2, 1, 8, 5, 2, [true, false, false, true, false, false, false, false]⟩]
        T.filters) :=
  ⟨claim_C4_roundtrip_amended.1
    ⟨1/2, 1, 8, 5, 2, [true, false, false, true, false, false, false, false]⟩
    (by decide),
   claim_C4_roundtrip_amended.2
    ⟨2, 9/10, 2, 1/2,
      [⟨1/2, 1, 8, 5, 2, [true, false, false, true, false, false, false, false]⟩]⟩
    (by decide)⟩

/-- Counterexample for C4 as stated: a constructed filter with
`num_bits = 2` (not a multiple of 8) reloads with an 8-bit vector, so
the round-trip is not bit-for-bit equal. -/
theorem claim_C4_roundtrip_counterexample :
    BloomFilter.init exDerive2 1 (1/2)
      = .ok ⟨1/2, 1, 2, 1, 0, List.replicate 2 false⟩ ∧
    BloomFilter.fromfile (BloomFilter.tofile
      ⟨1/2, 1, 2, 1, 0, List.replicate 2 false⟩)
      = .ok ⟨1/2, 1, 2, 1, 0, List.replicate 8 false⟩ ∧
    (⟨1/2, 1, 2, 1, 0, List.replicate 8 false⟩ : BloomFilter).bits
      ≠ (⟨1/2, 1, 2, 1, 0, List.replicate 2 false⟩ : BloomFilter).bits := by
  refine ⟨?_, by rfl, by decide⟩
  simp [BloomFilter.init, exDerive2, show (2:ℚ)⁻¹ < 1 by norm_num]

/-- C9 (amended). `fromfile` accepts a payload exactly when its bit
length (8 bits per payload byte) equals `num_bits` or equals
`num_bits + (8 - num_bits % 8)`; for `num_bits` not a multiple of 8 the
second form is `num_bits` rounded up to the next byte, but for
`num_bits` a multiple of 8 it is `num_bits + 8`, so a payload one whole
byte longer than the bit vector is also accepted; everything else is
rejected with the format ValueError. -/
theorem claim_C9_fromfile_length_amended (file : BFFile) :
    BloomFilter.fromfile file =
      (if 8 * file.payload.length = file.num_slices * file.bits_per_slice ∨
          8 * file.payload.length = file.num_slices * file.bits_per_slice
            + (8 - (file.num_slices * file.bits_per_slice) % 8)
       then .ok ⟨file.error_rate, file.num_slices, file.bits_per_slice,
         file.capacity, file.count, bytesToBits file.payload⟩
       else .error "Bit length mismatch!") := by
  unfold BloomFilter.fromfile
  dsimp only
  simp only [BloomFilter.num_bits, length_bytesToBits]
  by_cases h : file.num_slices * file.bits_per_slice
        ≠ 8 * file.payload.length ∧
      file.num_slices * file.bits_per_slice
        + (8 - (file.num_slices * file.bits_per_slice) % 8)
        ≠ 8 * file.payload.length
  · rw [if_pos h, if_neg]
    revert h
    generalize file.num_slices * file.bits_per_slice = N
    intro h
    omega
  · rw [if_neg h, if_pos]
    revert h
    generalize file.num_slices * file.bits_per_slice = N
    intro h
    omega

/-- Counterexample for C9 as stated: with geometry `(1, 8)` the bit
vector is `num_bits = 8` bits, one byte; a 2-byte (16-bit) payload is
neither `num_bits` bits nor `num_bits` rounded up to a whole byte
(which is 8), yet `fromfile` accepts it. -/
theorem claim_C9_fromfile_length_counterexample :
    BloomFilter.fromfile ⟨1/2, 1, 8, 5, 0, [0, 0]⟩
      = .ok ⟨1/2, 1, 8, 5, 0, List.replicate 16 false⟩ ∧
    (1 * 8 = 8) ∧ ((8 + 7) / 8 * 8 = 8) ∧ (8 * 2 = 16) ∧ (16 : ℕ) ≠ 8 :=
  ⟨by rfl, by decide, by decide, by decide, by decide⟩

/-- `copy` on a filter with constructor-valid parameters. -/
theorem copy_ok (derive : ℚ → ℕ → ℕ × ℕ) (F : BloomFilter)
    (he0 : 0 < F.error_rate) (he1 : F.error_rate < 1)
    (hc : 0 < F.capacity) :
    F.copy derive = .ok ⟨F.error_rate, (derive F.error_rate F.capacity).1,
      (derive F.error_rate F.capacity).2, F.capacity, 0, F.bits⟩ := by
  unfold BloomFilter.copy
  rw [init_ok_of derive F.capacity F.error_rate he0 he1 hc]
  rfl

/-- C6 (amended). `union` and `intersection` compare only `capacity`
and `error_rate`: they raise the Incompatible ValueError exactly when
one of those two differs, and otherwise (given constructor-valid
parameters, so the internal `copy` succeeds) return a fresh filter
whose bit vector is the bitwise OR resp. AND; `num_slices` and
`bits_per_slice` are never compared. -/
theorem claim_C6_union_intersection_amended (derive : ℚ → ℕ → ℕ × ℕ)
    (F G : BloomFilter) :
    (F.capacity ≠ G.capacity ∨ F.error_rate ≠ G.error_rate →
      F.union derive G = .error "Unioning filters requires both filters to have both the same capacity and error rate" ∧
      F.intersection derive G = .error "Intersecting filters requires both filters to have equal capacity and error rate") ∧
    (F.capacity = G.capacity → F.error_rate = G.error_rate →
      0 < F.error_rate → F.error_rate < 1 → 0 < F.capacity →
      (∃ H, F.union derive G = .ok H ∧
        H.bits = List.zipWith or F.bits G.bits ∧
        H.capacity = F.capacity ∧ H.error_rate = F.error_rate) ∧
      (∃ K, F.intersection derive G = .ok K ∧
        K.bits = List.zipWith and F.bits G.bits ∧
        K.capacity = F.capacity ∧ K.error_rate = F.error_rate)) := by
  constructor
  · intro h
    constructor
    · unfold BloomFilter.union
      rw [if_pos h]
    · unfold BloomFilter.intersection
      rw [if_pos h]
  · intro hcap herr he0 he1 hc
    have hnot : ¬(F.capacity ≠ G.capacity ∨ F.error_rate ≠ G.error_rate) := by
      push_neg
      exact ⟨hcap, herr⟩
    constructor
    · refine ⟨⟨F.error_rate, (derive F.error_rate F.capacity).1,
        (derive F.error_rate F.capacity).2, F.capacity, 0,
        List.zipWith or F.bits G.bits⟩, ?_, rfl, rfl, rfl⟩
      unfold BloomFilter.union
      rw [if_neg hnot, copy_ok derive F he0 he1 hc]
      rfl
    · refine ⟨⟨F.error_rate, (derive F.error_rate F.capacity).1,
        (derive F.error_rate F.capacity).2, F.capacity, 0,
        List.zipWith and F.bits G.bits⟩, ?_, rfl, rfl, rfl⟩
      unfold BloomFilter.intersection
      rw [if_neg hnot, copy_ok derive F he0 he1 hc]
      rfl

/-- Witness for C6 (amended): mismatched capacities raise, matched
parameters produce the OR/AND of the bit vectors. -/
theorem claim_C6_union_intersection_amended_witness :
    (BloomFilter.union exDerive ⟨1/2, 1, 8, 1, 0, List.replicate 8 false⟩
        ⟨1/2, 1, 8, 2, 0, List.replicate 8 false⟩
      = .error "Unioning filters requires both filters to have both the same capacity and error rate" ∧
     BloomFilter.intersection exDerive ⟨1/2, 1, 8, 1, 0, List.replicate 8 false⟩
        ⟨1/2, 1, 8, 2, 0, List.replicate 8 false⟩
      = .error "Intersecting filters requires both filters to have equal capacity and error rate") ∧
    ((∃ H, BloomFilter.union exDerive
        ⟨1/2, 1, 8, 5, 0, [true, false, false, false, false, false, false, false]⟩
        ⟨1/2, 1, 8, 5, 0, [false, true, false, false, false, false, false, false]⟩
      = .ok H ∧
      H.bits = List.zipWith or
        [true, false, false, false, false, false, false, false]
        [false, true, false, false, false, false, false, false] ∧
      H.capacity = 5 ∧ H.error_rate = 1/2) ∧
    (∃ K, BloomFilter.intersection exDerive
        ⟨1/2, 1, 8, 5, 0, [true, false, false, false, false, false, false, false]⟩
        ⟨1/2, 1, 8, 5, 0, [false, true, false, false, false, false, false, false]⟩
      = .ok K ∧
      K.bits = List.zipWith and
        [true, false, false, false, false, false, false, false]
        [false, true, false, false, false, false, false, false] ∧
      K.capacity = 5 ∧ K.error_rate = 1/2)) :=
  ⟨(claim_C6_union_intersection_amended exDerive
      ⟨1/2, 1, 8, 1, 0, List.replicate 8 false⟩
      ⟨1/2, 1, 8, 2, 0, List.replicate 8 false⟩).1 (Or.inl (by decide)),
   (claim_C6_union_intersection_amended exDerive
      ⟨1/2, 1, 8, 5, 0, [true, false, false, false, false, false, false, false]⟩
      ⟨1/2, 1, 8, 5, 0, [false, true, false, false, false, false, false, false]⟩).2
     rfl rfl halfPos halfLtOne (by decide)⟩

/-- Counterexample for C6 as stated: two deserializable filters with
equal `capacity` and `error_rate` but different `num_slices` and
`bits_per_slice` (2×3 versus 3×2); the claim requires Incompatible,
yet both `union` and `intersection` succeed. -/
theorem claim_C6_union_intersection_counterexample :
    BloomFilter.fromfile ⟨1/2, 2, 3, 5, 0, [0]⟩
      = .ok ⟨1/2, 2, 3, 5, 0, List.replicate 8 false⟩ ∧
    BloomFilter.fromfile ⟨1/2, 3, 2, 5, 0, [0]⟩
      = .ok ⟨1/2, 3, 2, 5, 0, List.replicate 8 false⟩ ∧
    (2 : ℕ) ≠ 3 ∧ (3 : ℕ) ≠ 2 ∧
    BloomFilter.union exDerive ⟨1/2, 2, 3, 5, 0, List.replicate 8 false⟩
      ⟨1/2, 3, 2, 5, 0, List.replicate 8 false⟩
      = .ok ⟨1/2, 1, 8, 5, 0, List.replicate 8 false⟩ ∧
    BloomFilter.intersection exDerive
      ⟨1/2, 2, 3, 5, 0, List.replicate 8 false⟩
      ⟨1/2, 3, 2, 5, 0, List.replicate 8 false⟩
      = .ok ⟨1/2, 1, 8, 5, 0, List.replicate 8 false⟩ := by
  refine ⟨by rfl, by rfl, by decide, by decide, ?_, ?_⟩
  · unfold BloomFilter.union
    rw [if_neg (by simp)]
    rw [copy_ok exDerive ⟨1/2, 2, 3, 5, 0, List.replicate 8 false⟩
      halfPos halfLtOne (by decide)]
    rfl
  · unfold BloomFilter.intersection
    rw [if_neg (by simp)]
    rw [copy_ok exDerive ⟨1/2, 2, 3, 5, 0, List.replicate 8 false⟩
      halfPos halfLtOne (by decide)]
    rfl

/-- Any successful `union` reports `count = 0` (it is built on `copy`,
which reconstructs through the constructor). -/
theorem union_count_zero (derive : ℚ → ℕ → ℕ × ℕ) (F G H : BloomFilter)
    (h : F.union derive G = .ok H) : H.count = 0 := by
  unfold BloomFilter.union at h
  split at h
  · exact absurd h (by simp)
  · unfold BloomFilter.copy at h
    cases hinit : BloomFilter.init derive F.capacity F.error_rate with
    | error e =>
      rw [hinit] at h
      exact absurd h (by simp [Except.map])
    | ok C0 =>
      rw [hinit] at h
      simp only [Except.map, Except.ok.injEq] at h
      obtain ⟨-, -, -, hC0⟩ := init_ok_elim derive F.capacity F.error_rate C0 hinit
      rw [← h]
      show C0.count = 0
      rw [hC0]

/-- Any successful `intersection` reports `count = 0`. -/
theorem intersection_count_zero (derive : ℚ → ℕ → ℕ × ℕ)
    (F G H : BloomFilter) (h : F.intersection derive G = .ok H) :
    H.count = 0 := by
  unfold BloomFilter.intersection at h
  split at h
  · exact absurd h (by simp)
  · unfold BloomFilter.copy at h
    cases hinit : BloomFilter.init derive F.capacity F.error_rate with
    | error e =>
      rw [hinit] at h
      exact absurd h (by simp [Except.map])
    | ok C0 =>
      rw [hinit] at h
      simp only [Except.map, Except.ok.injEq] at h
      obtain ⟨-, -, -, hC0⟩ := init_ok_elim derive F.capacity F.error_rate C0 hinit
      rw [← h]
      show C0.count = 0
      rw [hC0]

/-- C10. `copy` rebuilds through the constructor: on a
constructor-consistent filter it preserves the geometry and the bit
vector but resets `count` to 0 whatever `F.count` was; consequently
every filter returned by `union` or `intersection` reports `count = 0`
and `len() = 0`, even for non-empty operands. -/
theorem claim_C10_copy_count_zero (derive : ℚ → ℕ → ℕ × ℕ)
    (F : BloomFilter)
    (hns : F.num_slices = (derive F.error_rate F.capacity).1)
    (hbps : F.bits_per_slice = (derive F.error_rate F.capacity).2)
    (he0 : 0 < F.error_rate) (he1 : F.error_rate < 1)
    (hc : 0 < F.capacity) :
    (∃ C, F.copy derive = .ok C ∧ C.error_rate = F.error_rate ∧
      C.num_slices = F.num_slices ∧ C.bits_per_slice = F.bits_per_slice ∧
      C.capacity = F.capacity ∧ C.bits = F.bits ∧ C.count = 0 ∧
      C.len = 0) ∧
    (∀ G H, F.union derive G = .ok H → H.count = 0 ∧ H.len = 0) ∧
    (∀ G H, F.intersection derive G = .ok H → H.count = 0 ∧ H.len = 0) := by
  refine ⟨⟨_, copy_ok derive F he0 he1 hc, rfl, hns.symm, hbps.symm, rfl,
      rfl, rfl, rfl⟩, ?_, ?_⟩
  · intro G H h
    have := union_count_zero derive F G H h
    exact ⟨this, this⟩
  · intro G H h
    have := intersection_count_zero derive F G H h
    exact ⟨this, this⟩

/-- Witness for C10: a filter with `count = 3` copies to `count = 0`,
and union/intersection of non-empty filters report zero count. -/
theorem claim_C10_copy_count_zero_witness :
    (∃ C, BloomFilter.copy exDerive
        ⟨1/2, 1, 8, 5, 3, [true, true, false, false, false, false, false, false]⟩
      = .ok C ∧ C.error_rate = 1/2 ∧ C.num_slices = 1 ∧
      C.bits_per_slice = 8 ∧ C.capacity = 5 ∧
      C.bits = [true, true, false, false, false, false, false, false] ∧
      C.count = 0 ∧ C.len = 0) ∧
    ((⟨1/2, 1, 8, 5, 0, [true, true, false, false, false, false, false, false]⟩
        : BloomFilter).count = 0 ∧
      (⟨1/2, 1, 8, 5, 0, [true, true, false, false, false, false, false, false]⟩
        : BloomFilter).len = 0) :=
  ⟨(claim_C10_copy_count_zero exDerive
      ⟨1/2, 1, 8, 5, 3, [true, true, false, false, false, false, false, false]⟩
      rfl rfl halfPos halfLtOne (by decide)).1,
   (claim_C10_copy_count_zero exDerive
      ⟨1/2, 1, 8, 5, 3, [true, true, false, false, false, false, false, false]⟩
      rfl rfl halfPos halfLtOne (by decide)).2.1
     ⟨1/2, 1, 8, 5, 3, [true, true, false, false, false, false, false, false]⟩
     ⟨1/2, 1, 8, 5, 0, [true, true, false, false, false, false, false, false]⟩
     (by
       unfold BloomFilter.union
       rw [if_neg (by simp), copy_ok exDerive
         ⟨1/2, 1, 8, 5, 3, [true, true, false, false, false, false, false, false]⟩
         halfPos halfLtOne (by decide)]
       rfl)⟩

/-- Witness for C7 at a concrete SBF whose only generation is full. -/
theorem claim_C7_sbf_add_never_saturated_witness :
    ScalableBloomFilter.add exDerive modHashes
      ⟨2, 9/10, 2, 1/2,
        [⟨1/2, 1, 8, 1, 1, [true, false, false, false, false, false, false, false]⟩]⟩ 3
      ≠ .error "BloomFilter is at capacity" :=
  claim_C7_sbf_add_never_saturated exDerive modHashes
    ⟨2, 9/10, 2, 1/2,
      [⟨1/2, 1, 8, 1, 1, [true, false, false, false, false, false, false, false]⟩]⟩ 3
